import Mathlib

/-!
Verification of `hack-btc/script.cc` — a BIP32-style HD-wallet derivation-path
search.  The C++ program derives a seed from a fixed mnemonic, walks a fixed
candidate space of derivation paths, and compares each derived Base58Check
address against a fixed target.

Shallow embedding conventions:
* bytes are `Nat` values (< 256 on the faithful domain); byte vectors are
  `List Nat`;
* the external cryptographic primitives (OpenSSL digests, PBKDF2 and the
  secp256k1 scalar/point operations) are fields of an abstract `CryptoLib`
  structure — the program treats them as an opaque library capability;
* C++ exceptions become `Except Err`;
* `uint32` / `uint16` arithmetic is `Nat` arithmetic; in each loop below the
  intermediate values provably stay below the C++ types' moduli on the
  faithful byte domain, so no wrap-around modelling is needed.
-/

namespace HackBtc

/-- The external cryptographic library surface used by `script.cc`
(OpenSSL's HMAC-SHA512 / SHA-256 / RIPEMD-160 / PBKDF2 and libsecp256k1's
seckey verify, pubkey create+serialize, and scalar tweak-add).  These are
collaborators, not reimplemented; the program is verified for an arbitrary
instance. -/
structure CryptoLib where
  hmacSha512 : List Nat → List Nat → List Nat
  sha256 : List Nat → List Nat
  ripemd160 : List Nat → List Nat
  /-- `PKCS5_PBKDF2_HMAC(password, salt, iterations, EVP_sha512, dkLen)`. -/
  pbkdf2HmacSha512 : String → String → Nat → Nat → List Nat
  /-- `secp256k1_ec_seckey_verify`. -/
  seckeyVerify : List Nat → Bool
  /-- `secp256k1_ec_pubkey_create` followed by compressed serialization;
  `none` when the C call fails. -/
  pubkeyCreate : List Nat → Option (List Nat)
  /-- `secp256k1_ec_seckey_tweak_add`; `none` when the C call fails. -/
  seckeyTweakAdd : List Nat → List Nat → Option (List Nat)

/-- The distinct fatal error conditions thrown in `script.cc`. -/
inductive Err where
  /-- "Invalid private key generated from seed" (`HDKey::from_seed`). -/
  | invalidMasterKey
  /-- "Failed to create public key" (`HDKey::HDKey`). -/
  | pubkeyCreateFailed
  /-- "Invalid child key - retry with next index" (`HDKey::derive_child`). -/
  | invalidChildKey
  /-- "Invalid base58 character" (`decode_base58`). -/
  | invalidBase58Char
  /-- "Invalid address length after decode" (`decode_base58`). -/
  | invalidAddrLength
deriving DecidableEq, Repr

/-- `class HDKey` — an immutable HD key node (script.cc:33-36). -/
structure HDKey where
  private_key : List Nat
  chain_code : List Nat
  public_key : List Nat
deriving DecidableEq, Repr

/-- The `HDKey(private_key, chain_code)` constructor (script.cc:56-71):
derives and stores the compressed public key, throwing when
`secp256k1_ec_pubkey_create` fails. -/
def HDKey.create (L : CryptoLib) (sk cc : List Nat) : Except Err HDKey :=
  match L.pubkeyCreate sk with
  | none => .error .pubkeyCreateFailed
  | some pk => .ok ⟨sk, cc, pk⟩

/-- The ASCII bytes of `"Bitcoin seed"` (script.cc:42-43). -/
def bitcoinSeedKey : List Nat := [66, 105, 116, 99, 111, 105, 110, 32, 115, 101, 101, 100]

/-- `HDKey::from_seed` (script.cc:39-54). -/
def HDKey.from_seed (L : CryptoLib) (seed : List Nat) : Except Err HDKey :=
  let hmac := L.hmacSha512 bitcoinSeedKey seed
  let sk := hmac.take 32
  let cc := hmac.drop 32
  if L.seckeyVerify sk then HDKey.create L sk cc
  else .error .invalidMasterKey

/-- The 4-byte big-endian serialization of a `uint32` index
(script.cc:84-87, `(index >> s) & 0xFF`). -/
def be32 (i : Nat) : List Nat :=
  [i >>> 24 &&& 255, i >>> 16 &&& 255, i >>> 8 &&& 255, i &&& 255]

/-- The HMAC input blob of `HDKey::derive_child` (script.cc:74-87):
`0x00 ‖ private_key` when hardened (`index ≥ 0x80000000`), else the
compressed public key, followed by the index in big-endian. -/
def HDKey.child_data (k : HDKey) (index : Nat) : List Nat :=
  (if index ≥ 2 ^ 31 then 0 :: k.private_key else k.public_key) ++ be32 index

/-- `HDKey::derive_child` (script.cc:73-106).  The C++ constructs the child
with the default all-zero chain code and then assigns `I_R`; the record
update below is that assignment. -/
def HDKey.derive_child (L : CryptoLib) (k : HDKey) (index : Nat) : Except Err HDKey :=
  let I := L.hmacSha512 k.chain_code (k.child_data index)
  let IL := I.take 32
  let IR := I.drop 32
  match L.seckeyTweakAdd k.private_key IL with
  | none => .error .invalidChildKey
  | some csk =>
    match HDKey.create L csk (List.replicate 32 0) with
    | .error e => .error e
    | .ok c => .ok { c with chain_code := IR }

/-- `hash160` (script.cc:176-186): SHA-256 then RIPEMD-160. -/
def hash160 (L : CryptoLib) (input : List Nat) : List Nat :=
  L.ripemd160 (L.sha256 input)

/-- Write `src` into the fixed-size buffer `dst` starting at `pos`
(`std::copy` into a `std::array`), truncated at the buffer end. -/
def writeAt (dst : List Nat) (pos : Nat) (src : List Nat) : List Nat :=
  dst.take pos ++ src.take (dst.length - pos) ++ dst.drop (pos + src.length)

/-- `HDKey::get_address` (script.cc:108-127): a zero-initialized 25-byte
array receives version byte `0x00`, the 20-byte `hash160` of the public key
at offset 1, and the first 4 bytes of the double SHA-256 of the first 21
bytes at offset 21.  (The local `with_version` vector in the C++ is dead.) -/
def HDKey.get_address (L : CryptoLib) (k : HDKey) : List Nat :=
  let h160 := hash160 L k.public_key
  let r1 := writeAt (List.replicate 25 0) 1 h160
  let checksum := L.sha256 (L.sha256 (r1.take 21))
  writeAt r1 21 (checksum.take 4)

/-- `seed_from_phrase` (script.cc:132-149): PBKDF2-HMAC-SHA512 with the
literal salt "mnemonic", 2048 iterations and a 64-byte output. -/
def seed_from_phrase (L : CryptoLib) (mnemonic : String) : List Nat :=
  L.pbkdf2HmacSha512 mnemonic "mnemonic" 2048 64

/-- `BASE58_CHARS` (script.cc:189). -/
def b58Chars : List Char :=
  "123456789ABCDEFGHJKLMNPQRSTUVWXYZabcdefghijkmnopqrstuvwxyz".toList

/-- The byte array scanned by `strchr(BASE58_CHARS, c)`: the 58 alphabet
characters plus the terminating NUL, which `strchr` considers part of the
string. -/
def b58Table : List Char := b58Chars ++ [Char.ofNat 0]

/-- The digit index `strchr(BASE58_CHARS, c) - BASE58_CHARS` of a character,
`none` for `nullptr`.  (The NUL character yields `some 58` — the terminator
position — exactly as the C call does.) -/
def b58Index (c : Char) : Option Nat := b58Table.findIdx? (· == c)

/-- The inner long-division loop of `encode_base58` (script.cc:205-209):
replace each little-endian base-58 digit `b[j]` by `(carry + b[j]·256) % 58`
while propagating `carry / 58` upward.  On the byte domain the C++ `uint16`
carry provably never exceeds 14848, so `Nat` arithmetic is faithful. -/
def encDivLoop : List Nat → Nat → List Nat × Nat
  | [], carry => ([], carry)
  | d :: rest, carry =>
    let c := carry + d * 256
    let r := encDivLoop rest (c / 58)
    (c % 58 :: r.1, r.2)

/-- The trailing `while (carry > 0)` push loop of `encode_base58`
(script.cc:210-213), with the loop counter made structural by fuel: the
carry strictly shrinks under `/ 58`, so `fuel = carry` always suffices. -/
def pushCarryAux : Nat → Nat → List Nat
  | 0, _ => []
  | fuel + 1, carry =>
    if carry = 0 then [] else carry % 58 :: pushCarryAux fuel (carry / 58)

/-- The `while (carry > 0) { b.push_back(carry % 58); carry /= 58; }` loop. -/
def pushCarry (carry : Nat) : List Nat := pushCarryAux carry carry

/-- One iteration of the outer byte loop of `encode_base58`
(script.cc:203-214). -/
def encStep (b : List Nat) (byte : Nat) : List Nat :=
  let r := encDivLoop b byte
  r.1 ++ pushCarry r.2

/-- The leading-zero count of `encode_base58` (script.cc:194-197). -/
def countLeadingZeroBytes (l : List Nat) : Nat := (l.takeWhile (· == 0)).length

/-- `encode_base58` (script.cc:191-229): count leading zero bytes, long-divide
the remaining big-endian bytes into little-endian base-58 digits, then emit
that many '1's followed by the digits most-significant first through the
alphabet. -/
def encode_base58 (input : List Nat) : String :=
  let zeros := countLeadingZeroBytes input
  let b := (input.drop zeros).foldl encStep []
  ⟨List.replicate zeros '1' ++ (b.reverse.map fun d => b58Chars.getD d '?')⟩

/-- The inner multiply-accumulate loop of `decode_base58` (script.cc:243-247):
replace each little-endian base-256 byte `bn[i]` by `(bn[i]·58 + digit) & 0xff`
while propagating `carry >> 8` upward.  On valid inputs the C++ `uint32`
carry provably never exceeds 15045, so `Nat` arithmetic is faithful. -/
def decMulLoop : List Nat → Nat → List Nat × Nat
  | [], digit => ([], digit)
  | d :: rest, digit =>
    let c := d * 58 + digit
    let r := decMulLoop rest (c / 256)
    (c % 256 :: r.1, r.2)

/-- One character step of `decode_base58` (script.cc:243-250), including the
conditional `bn.push_back(digit)`. -/
def decStep (bn : List Nat) (digit : Nat) : List Nat :=
  let r := decMulLoop bn digit
  r.1 ++ (if r.2 > 0 then [r.2] else [])

/-- The per-character loop of `decode_base58` (script.cc:236-251): look each
character up with `strchr`, throwing on `nullptr`, and accumulate the base-58
value into the little-endian big integer `bn`. -/
def decodeDigits : List Nat → List Char → Except Err (List Nat)
  | bn, [] => .ok bn
  | bn, c :: rest =>
    match b58Index c with
    | none => .error .invalidBase58Char
    | some d => decodeDigits (decStep bn d) rest

/-- `decode_base58` (script.cc:231-268).  The 25-byte result buffer is filled
with one zero per leading '1' (stopping at the buffer end), then with the
big-integer bytes most-significant first (again stopping at the buffer end);
it throws `InvalidAddrLength` when fewer than 25 positions were filled. -/
def decode_base58 (input : String) : Except Err (List Nat) :=
  match decodeDigits [] input.toList with
  | .error e => .error e
  | .ok bn =>
    let z := min (input.toList.takeWhile (· == '1')).length 25
    let t := min bn.length (25 - z)
    if z + t = 25 then .ok (List.replicate z 0 ++ bn.reverse.take (25 - z))
    else .error .invalidAddrLength

/-- The four path-family roots of `check_seed_phrase` (script.cc:281-286):
BIP44 `44'/0'`, BIP49 `49'/0'`, BIP84 `84'/0'` and the legacy empty root. -/
def familyList : List (List Nat) :=
  [[2 ^ 31 + 44, 2 ^ 31], [2 ^ 31 + 49, 2 ^ 31], [2 ^ 31 + 84, 2 ^ 31], []]

/-- The full candidate space in the exact order the nested loops of
`check_seed_phrase` (script.cc:289-331) visit it: for each family, hardened
account `0..19` (skipped for the legacy family), change `0..1`, then index
`0..19`.  `0x80000000 | i` equals `2^31 + i` for `i < 20`. -/
def candidatePaths : List (List Nat) :=
  familyList.flatMap fun fam =>
    (List.range (if fam.isEmpty then 1 else 20)).flatMap fun i =>
      (List.range 2).flatMap fun j =>
        (List.range 20).map fun k =>
          fam ++ (if fam.isEmpty then [] else [2 ^ 31 + i]) ++ [j, k]

/-- The `for (uint32_t index : path) key = key.derive_child(index);` loop
(script.cc:292-294). -/
def derivePath (L : CryptoLib) : HDKey → List Nat → Except Err HDKey
  | k, [] => .ok k
  | k, i :: rest =>
    match k.derive_child L i with
    | .error e => .error e
    | .ok c => derivePath L c rest

/-- The candidate loop of `check_seed_phrase`, flattened over the candidate
list it enumerates.  The returned pair instruments the loop with the number
of candidates examined (its `.2` is the source-observable outcome: `some p`
for the printed matching path / `return true`, `none` for `return false`). -/
def searchLoop (L : CryptoLib) (master : HDKey) (target : List Nat) :
    List (List Nat) → Nat → Except Err (Nat × Option (List Nat))
  | [], n => .ok (n, none)
  | p :: rest, n =>
    match derivePath L master p with
    | .error e => .error e
    | .ok key =>
      if key.get_address L == target then .ok (n + 1, some p)
      else searchLoop L master target rest (n + 1)

/-- `check_seed_phrase` (script.cc:271-334). -/
def check_seed_phrase (L : CryptoLib) (mnemonic : String) (target : List Nat) :
    Except Err (Nat × Option (List Nat)) :=
  match HDKey.from_seed L (seed_from_phrase L mnemonic) with
  | .error e => .error e
  | .ok master => searchLoop L master target candidatePaths 0

/-- Observable ways the process can end. -/
inductive MainOutcome where
  /-- `return code;` from `main`. -/
  | exit (code : Nat)
  /-- the `assert(target_bytes[0] == 0)` fails (script.cc:378). -/
  | abortAssert
  /-- an exception escapes `main` (std::terminate). -/
  | uncaught (e : Err)
deriving DecidableEq, Repr

/-- The exit code of the `secp256k1_context_create` failure branch
(script.cc:340-343). -/
def ctxFailExitCode : Nat := 1

/-- The exit code of `return found ? 0 : 1;` (script.cc:384). -/
def searchExitCode (found : Bool) : Nat := if found then 0 else 1

/-- The hard-coded mnemonic of `main` (script.cc:345-372). -/
def theMnemonic : String :=
  "rescue account rookie remember dose ice donor organ head eyebrow obvious seven"

/-- The hard-coded target address string of `main` (script.cc:373-377). -/
def theTargetStr : String := "1Lme4nrYHRChHwrpVHJTajEXGQjZv72GyS"

/-- `main` (script.cc:337-385), parametrized over the two input literals:
context creation, target decoding, the version-byte assertion, the search,
and the final exit code. -/
def mainRun (L : CryptoLib) (ctxOk : Bool) (mnemonic targetStr : String) : MainOutcome :=
  if ctxOk = false then .exit ctxFailExitCode
  else
    match decode_base58 targetStr with
    | .error e => .uncaught e
    | .ok target =>
      if target.head? ≠ some 0 then .abortAssert
      else
        match check_seed_phrase L mnemonic target with
        | .error e => .uncaught e
        | .ok r => .exit (searchExitCode r.2.isSome)

/-- `main` with the literals actually in the source. -/
def mainRunActual (L : CryptoLib) (ctxOk : Bool) : MainOutcome :=
  mainRun L ctxOk theMnemonic theTargetStr

/-! ### Specification-side and auxiliary definitions -/

/-- A list is a canonical digit string when its most significant (last) digit
is nonzero. -/
def LastNZ (l : List Nat) : Prop := ∀ h : l ≠ [], l.getLast h ≠ 0
/-- Specification-side restatement: hardened index `n'`. -/
def hardened (n : Nat) : Nat := 2 ^ 31 + n

/-- Specification-side restatement of one non-legacy path family
(`purpose' / 0' / account' / change / index` with account `0..19`,
change `{0,1}`, index `0..19`). -/
def familyCandidatesSpec (purpose : Nat) : List (List Nat) :=
  (List.range 20).flatMap fun account =>
    [0, 1].flatMap fun change =>
      (List.range 20).map fun idx =>
        [hardened purpose, hardened 0, hardened account, change, idx]

/-- Specification-side restatement of the legacy family: only
`change / index` directly under the master node. -/
def legacyCandidatesSpec : List (List Nat) :=
  [0, 1].flatMap fun change =>
    (List.range 20).map fun idx => [change, idx]

/-- Specification-side restatement of the full candidate order:
BIP44, then BIP49, then BIP84, then legacy. -/
def candidatePathsSpec : List (List Nat) :=
  familyCandidatesSpec 44 ++ familyCandidatesSpec 49 ++ familyCandidatesSpec 84 ++
    legacyCandidatesSpec
/-- Does the candidate path derive (successfully) to a key whose address is
the target?  This is the comparison performed at script.cc:317. -/
def pathHits (L : CryptoLib) (master : HDKey) (target : List Nat) (p : List Nat) : Bool :=
  match derivePath L master p with
  | .ok key => key.get_address L == target
  | .error _ => false

/-- Specification-side first-match search: the first hit in the candidate
list together with the number of candidates examined up to and including it. -/
def firstMatch (L : CryptoLib) (master : HDKey) (target : List Nat) :
    List (List Nat) → Option (Nat × List Nat)
  | [] => none
  | p :: rest =>
    if pathHits L master target p then some (1, p)
    else (firstMatch L master target rest).map fun r => (r.1 + 1, r.2)
/-- The left half `I_L` of the HMAC-SHA512 output in `derive_child`. -/
def childIL (L : CryptoLib) (k : HDKey) (i : Nat) : List Nat :=
  (L.hmacSha512 k.chain_code (k.child_data i)).take 32

/-- The right half `I_R` of the HMAC-SHA512 output in `derive_child`. -/
def childIR (L : CryptoLib) (k : HDKey) (i : Nat) : List Nat :=
  (L.hmacSha512 k.chain_code (k.child_data i)).drop 32

/-- Specification-side restatement of §4.2 `deriveChild`: hardened blob
`0x00 ‖ scalar(32) ‖ BE32(i)` when `i ≥ 2^31`, else `pubkey(33) ‖ BE32(i)`;
`I = HMAC-SHA512(chainCode, blob)`; child scalar through the library
tweak-add of `I_L`, chain code `I_R`, public key recomputed from the child
scalar; `InvalidChildKey` exactly on tweak-add failure. -/
def deriveChildSpec (L : CryptoLib) (k : HDKey) (i : Nat) : Except Err HDKey :=
  let blob := (if 2 ^ 31 ≤ i then [0] ++ k.private_key else k.public_key) ++
    [i / 16777216 % 256, i / 65536 % 256, i / 256 % 256, i % 256]
  let I := L.hmacSha512 k.chain_code blob
  match L.seckeyTweakAdd k.private_key (I.take 32) with
  | none => .error .invalidChildKey
  | some csk =>
    match L.pubkeyCreate csk with
    | none => .error .pubkeyCreateFailed
    | some pk => .ok ⟨csk, I.drop 32, pk⟩
/-- A degenerate but total `CryptoLib` instance: digests are constant,
scalar operations always succeed.  Every theorem above is generic in the
library, so this instance lets the statements be exercised on closed
inputs. -/
def trivLib : CryptoLib where
  hmacSha512 := fun _ _ => List.replicate 64 0
  sha256 := fun _ => List.replicate 32 0
  ripemd160 := fun _ => List.replicate 20 0
  pbkdf2HmacSha512 := fun _ _ _ _ => List.replicate 64 0
  seckeyVerify := fun _ => true
  pubkeyCreate := fun _ => some (List.replicate 33 0)
  seckeyTweakAdd := fun a _ => some a

/-- The master node `from_seed` produces under `trivLib`. -/
def trivMaster : HDKey :=
  ⟨List.replicate 32 0, List.replicate 32 0, List.replicate 33 0⟩

/-! ### Arithmetic facts about the Base58 loops -/

theorem pushCarryAux_eq_digits : ∀ fuel c, c ≤ fuel → pushCarryAux fuel c = Nat.digits 58 c
  | 0, c, h => by
    have hc : c = 0 := Nat.le_zero.mp h
    subst hc; simp [pushCarryAux]
  | fuel + 1, c, h => by
    by_cases hc : c = 0
    · subst hc; simp [pushCarryAux]
    · have hlt : c / 58 < c := Nat.div_lt_self (Nat.pos_of_ne_zero hc) (by norm_num)
      have hrec := pushCarryAux_eq_digits fuel (c / 58) (by omega)
      simp only [pushCarryAux, if_neg hc, hrec]
      rw [Nat.digits_def' (b := 58) (by norm_num) (Nat.pos_of_ne_zero hc)]

theorem pushCarry_eq_digits (c : Nat) : pushCarry c = Nat.digits 58 c :=
  pushCarryAux_eq_digits c c le_rfl

theorem encDivLoop_len (b : List Nat) : ∀ c, ((encDivLoop b c).1).length = b.length := by
  induction b with
  | nil => intro c; rfl
  | cons d rest ih => intro c; simp [encDivLoop, ih]

theorem encDivLoop_val (b : List Nat) : ∀ c : Nat,
    Nat.ofDigits 58 (encDivLoop b c).1 + (encDivLoop b c).2 * 58 ^ b.length =
      Nat.ofDigits 58 b * 256 + c := by
  induction b with
  | nil => intro c; simp [encDivLoop]
  | cons d rest ih =>
    intro c
    simp only [encDivLoop, Nat.ofDigits_cons, List.length_cons]
    have h2 := ih ((c + d * 256) / 58)
    have h3 : 58 * ((c + d * 256) / 58) + (c + d * 256) % 58 = c + d * 256 :=
      Nat.div_add_mod _ 58
    rw [pow_succ, ← mul_assoc]
    generalize hB : (encDivLoop rest ((c + d * 256) / 58)).2 * 58 ^ rest.length = B at h2 ⊢
    generalize hA : Nat.ofDigits 58 (encDivLoop rest ((c + d * 256) / 58)).1 = A at h2 ⊢
    generalize hR : Nat.ofDigits 58 rest = R at h2 ⊢
    omega

theorem encDivLoop_lt (b : List Nat) : ∀ c, ∀ x ∈ (encDivLoop b c).1, x < 58 := by
  induction b with
  | nil => intro c x hx; simp [encDivLoop] at hx
  | cons d rest ih =>
    intro c x hx
    simp only [encDivLoop, List.mem_cons] at hx
    rcases hx with h | h
    · subst h; exact Nat.mod_lt _ (by norm_num)
    · exact ih _ x h

theorem encDivLoop_carry_pos (b : List Nat) : ∀ c, ∀ h : b ≠ [],
    b.getLast h ≠ 0 → 0 < (encDivLoop b c).2 := by
  induction b with
  | nil => intro _ h; exact absurd rfl h
  | cons d rest ih =>
    intro c h hlast
    cases rest with
    | nil =>
      simp only [List.getLast_singleton] at hlast
      simp only [encDivLoop]
      exact Nat.div_pos (by omega) (by norm_num)
    | cons e tail =>
      have hlast2 : (e :: tail).getLast (by simp) ≠ 0 := by
        rwa [List.getLast_cons (by simp)] at hlast
      simp only [encDivLoop]
      exact ih _ (by simp) hlast2

theorem pushCarry_lt (c : Nat) : ∀ x ∈ pushCarry c, x < 58 := by
  rw [pushCarry_eq_digits]
  intro x hx
  exact Nat.digits_lt_base (by norm_num) hx

theorem pushCarry_ne_nil {c : Nat} (hc : c ≠ 0) : pushCarry c ≠ [] := by
  rw [pushCarry_eq_digits]
  exact Nat.digits_ne_nil_iff_ne_zero.mpr hc

theorem pushCarry_getLast {c : Nat} (hc : c ≠ 0) :
    ∀ h : pushCarry c ≠ [], (pushCarry c).getLast h ≠ 0 := by
  intro h
  have := Nat.getLast_digit_ne_zero 58 hc
  simp only [pushCarry_eq_digits] at h ⊢
  exact this


theorem encStep_val (b : List Nat) (byte : Nat) :
    Nat.ofDigits 58 (encStep b byte) = Nat.ofDigits 58 b * 256 + byte := by
  unfold encStep
  rw [Nat.ofDigits_append, encDivLoop_len, pushCarry_eq_digits, Nat.ofDigits_digits,
    mul_comm (58 ^ b.length)]
  exact encDivLoop_val b byte

theorem encStep_lt (b : List Nat) (byte : Nat) : ∀ x ∈ encStep b byte, x < 58 := by
  intro x hx
  unfold encStep at hx
  rcases List.mem_append.mp hx with h | h
  · exact encDivLoop_lt b byte x h
  · exact pushCarry_lt _ x h

theorem encStep_lastnz (b : List Nat) (byte : Nat) (hb : LastNZ b) :
    LastNZ (encStep b byte) := by
  intro h
  unfold encStep at h ⊢
  rcases List.eq_nil_or_concat b with rfl | ⟨b0, d, rfl⟩
  · -- empty accumulator: the result is exactly the pushed carry digits
    simp only [encDivLoop, List.nil_append] at h ⊢
    have hbyte : byte ≠ 0 := by
      intro h0; subst h0
      exact h (by simp [pushCarry, pushCarryAux])
    exact pushCarry_getLast hbyte h
  · -- nonempty accumulator with nonzero top digit: the final carry is positive
    simp only [List.concat_eq_append] at h hb ⊢
    have hlast : (b0 ++ [d]).getLast (by simp) ≠ 0 := hb _
    have hpos : 0 < (encDivLoop (b0 ++ [d]) byte).2 :=
      encDivLoop_carry_pos _ byte (by simp) hlast
    have hcne : (encDivLoop (b0 ++ [d]) byte).2 ≠ 0 := by omega
    have hne : pushCarry (encDivLoop (b0 ++ [d]) byte).2 ≠ [] := pushCarry_ne_nil hcne
    rw [List.getLast_append h, dif_neg (by simpa using hne)]
    exact pushCarry_getLast hcne _

theorem foldl_encStep_val (l : List Nat) : ∀ b0 : List Nat,
    Nat.ofDigits 58 (l.foldl encStep b0) =
      l.foldl (fun a x => a * 256 + x) (Nat.ofDigits 58 b0) := by
  induction l with
  | nil => intro b0; rfl
  | cons x rest ih =>
    intro b0
    simp only [List.foldl_cons, ih, encStep_val]

theorem foldl_encStep_lt (l : List Nat) : ∀ b0 : List Nat,
    (∀ x ∈ b0, x < 58) → ∀ x ∈ l.foldl encStep b0, x < 58 := by
  induction l with
  | nil => intro b0 hb; exact hb
  | cons y rest ih =>
    intro b0 _ x hx
    exact ih (encStep b0 y) (encStep_lt b0 y) x hx

theorem foldl_encStep_lastnz (l : List Nat) : ∀ b0 : List Nat,
    LastNZ b0 → LastNZ (l.foldl encStep b0) := by
  induction l with
  | nil => intro b0 hb; exact hb
  | cons y rest ih =>
    intro b0 hb
    exact ih (encStep b0 y) (encStep_lastnz b0 y hb)

theorem decMulLoop_len (bn : List Nat) : ∀ d, ((decMulLoop bn d).1).length = bn.length := by
  induction bn with
  | nil => intro d; rfl
  | cons x rest ih => intro d; simp [decMulLoop, ih]

theorem decMulLoop_val (bn : List Nat) : ∀ d : Nat,
    Nat.ofDigits 256 (decMulLoop bn d).1 + (decMulLoop bn d).2 * 256 ^ bn.length =
      Nat.ofDigits 256 bn * 58 + d := by
  induction bn with
  | nil => intro d; simp [decMulLoop]
  | cons x rest ih =>
    intro d
    simp only [decMulLoop, Nat.ofDigits_cons, List.length_cons]
    have h2 := ih ((x * 58 + d) / 256)
    have h3 : 256 * ((x * 58 + d) / 256) + (x * 58 + d) % 256 = x * 58 + d :=
      Nat.div_add_mod _ 256
    rw [pow_succ, ← mul_assoc]
    generalize hB : (decMulLoop rest ((x * 58 + d) / 256)).2 * 256 ^ rest.length = B at h2 ⊢
    generalize hA : Nat.ofDigits 256 (decMulLoop rest ((x * 58 + d) / 256)).1 = A at h2 ⊢
    generalize hR : Nat.ofDigits 256 rest = R at h2 ⊢
    omega

theorem decMulLoop_lt (bn : List Nat) : ∀ d, ∀ x ∈ (decMulLoop bn d).1, x < 256 := by
  induction bn with
  | nil => intro d x hx; simp [decMulLoop] at hx
  | cons y rest ih =>
    intro d x hx
    simp only [decMulLoop, List.mem_cons] at hx
    rcases hx with h | h
    · subst h; exact Nat.mod_lt _ (by norm_num)
    · exact ih _ x h

theorem decMulLoop_digit_lt (bn : List Nat) : ∀ d, (∀ x ∈ bn, x < 256) → d < 256 →
    (decMulLoop bn d).2 < 256 := by
  induction bn with
  | nil => intro d _ hd; exact hd
  | cons y rest ih =>
    intro d hbn hd
    have hy : y < 256 := hbn y (by simp)
    simp only [decMulLoop]
    exact ih _ (fun x hx => hbn x (by simp [hx])) (by omega)

theorem decMulLoop_lastnz (bn : List Nat) : ∀ d, ∀ h : bn ≠ [],
    bn.getLast h ≠ 0 → (decMulLoop bn d).2 = 0 →
    ∀ h2 : (decMulLoop bn d).1 ≠ [], ((decMulLoop bn d).1).getLast h2 ≠ 0 := by
  induction bn with
  | nil => intro _ h; exact absurd rfl h
  | cons y rest ih =>
    intro d h hlast hcz h2
    have hexp1 : (decMulLoop (y :: rest) d).1
        = (y * 58 + d) % 256 :: (decMulLoop rest ((y * 58 + d) / 256)).1 := rfl
    have hexp2 : (decMulLoop (y :: rest) d).2
        = (decMulLoop rest ((y * 58 + d) / 256)).2 := rfl
    cases rest with
    | nil =>
      simp only [List.getLast_singleton] at hlast
      have hc0 : (y * 58 + d) / 256 = 0 := hcz
      have hexp : (decMulLoop [y] d).1 = [(y * 58 + d) % 256] := rfl
      revert h2
      rw [hexp]
      intro h2
      -- no push happened, so y*58 + d < 256 and the new top is y*58 + d itself
      simp only [List.getLast_singleton]
      omega
    | cons e tail =>
      have hlast2 : (e :: tail).getLast (by simp) ≠ 0 := by
        rwa [List.getLast_cons (by simp)] at hlast
      rw [hexp2] at hcz
      have hne : (decMulLoop (e :: tail) ((y * 58 + d) / 256)).1 ≠ [] := by
        intro hnil
        have hl := decMulLoop_len (e :: tail) ((y * 58 + d) / 256)
        rw [hnil] at hl
        simp at hl
      revert h2
      rw [hexp1]
      intro h2
      rw [List.getLast_cons hne]
      exact ih _ (by simp) hlast2 hcz hne

theorem decStep_val (bn : List Nat) (d : Nat) :
    Nat.ofDigits 256 (decStep bn d) = Nat.ofDigits 256 bn * 58 + d := by
  unfold decStep
  rw [Nat.ofDigits_append, decMulLoop_len]
  by_cases hc : (decMulLoop bn d).2 > 0
  · simp only [hc, if_pos]
    have : Nat.ofDigits 256 [(decMulLoop bn d).2] = (decMulLoop bn d).2 := by
      simp [Nat.ofDigits_cons, Nat.ofDigits_nil]
    rw [this, mul_comm (256 ^ bn.length)]
    exact decMulLoop_val bn d
  · have hz : (decMulLoop bn d).2 = 0 := by omega
    simp only [hc, if_neg, Nat.ofDigits_nil, mul_zero, add_zero]
    have := decMulLoop_val bn d
    rw [hz] at this
    simpa using this

theorem decStep_lt (bn : List Nat) (d : Nat) (hbn : ∀ x ∈ bn, x < 256) (hd : d < 256) :
    ∀ x ∈ decStep bn d, x < 256 := by
  intro x hx
  unfold decStep at hx
  rcases List.mem_append.mp hx with h | h
  · exact decMulLoop_lt bn d x h
  · by_cases hc : (decMulLoop bn d).2 > 0
    · simp only [hc, if_pos, List.mem_singleton] at h
      subst h
      exact decMulLoop_digit_lt bn d hbn hd
    · simp [hc] at h

theorem decStep_lastnz (bn : List Nat) (d : Nat) (hbn : LastNZ bn) : LastNZ (decStep bn d) := by
  intro h
  unfold decStep at h ⊢
  by_cases hc : (decMulLoop bn d).2 > 0
  · simp only [hc, if_pos] at h ⊢
    rw [List.getLast_append, dif_neg (by simp)]
    simp only [List.getLast_singleton]
    omega
  · have hz : (decMulLoop bn d).2 = 0 := by omega
    simp only [hc, if_false, List.append_nil] at h ⊢
    rcases List.eq_nil_or_concat bn with rfl | ⟨b0, y, rfl⟩
    · have : (decMulLoop ([] : List Nat) d).1 = [] := rfl
      exact absurd this h
    · simp only [List.concat_eq_append] at h hbn hz ⊢
      exact decMulLoop_lastnz _ d (by simp) (hbn _) hz h

theorem foldl_decStep_val (ds : List Nat) : ∀ bn : List Nat,
    Nat.ofDigits 256 (ds.foldl decStep bn) =
      ds.foldl (fun a d => a * 58 + d) (Nat.ofDigits 256 bn) := by
  induction ds with
  | nil => intro bn; rfl
  | cons d rest ih =>
    intro bn
    simp only [List.foldl_cons, ih, decStep_val]

theorem foldl_decStep_lt (ds : List Nat) : ∀ bn : List Nat, (∀ d ∈ ds, d < 256) →
    (∀ x ∈ bn, x < 256) → ∀ x ∈ ds.foldl decStep bn, x < 256 := by
  induction ds with
  | nil => intro bn _ hbn; exact hbn
  | cons d rest ih =>
    intro bn hds hbn x hx
    exact ih (decStep bn d)
      (fun y hy => hds y (by simp [hy]))
      (decStep_lt bn d hbn (hds d (by simp))) x hx

theorem foldl_decStep_lastnz (ds : List Nat) : ∀ bn : List Nat,
    LastNZ bn → LastNZ (ds.foldl decStep bn) := by
  induction ds with
  | nil => intro bn hbn; exact hbn
  | cons d rest ih =>
    intro bn hbn
    exact ih (decStep bn d) (decStep_lastnz bn d hbn)

/-! ### The per-character loop of `decode_base58` -/

theorem decodeDigits_invalid (s : List Char) : (∃ c ∈ s, b58Index c = none) →
    ∀ bn, decodeDigits bn s = .error .invalidBase58Char := by
  induction s with
  | nil => rintro ⟨c, hc, _⟩; exact absurd hc (by simp)
  | cons c rest ih =>
    rintro ⟨c0, hc0, hnone⟩ bn
    rcases List.mem_cons.mp hc0 with rfl | hmem
    · simp [decodeDigits, hnone]
    · cases hidx : b58Index c with
      | none => simp [decodeDigits, hidx]
      | some d =>
        simp only [decodeDigits, hidx]
        exact ih ⟨c0, hmem, hnone⟩ _

theorem decodeDigits_valid (s : List Char) (ds : List Nat)
    (hmap : s.map b58Index = ds.map some) :
    ∀ bn, decodeDigits bn s = .ok (ds.foldl decStep bn) := by
  induction s generalizing ds with
  | nil =>
    cases ds with
    | nil => intro bn; rfl
    | cons d tail => simp at hmap
  | cons c rest ih =>
    cases ds with
    | nil => simp at hmap
    | cons d tail =>
      simp only [List.map_cons, List.cons.injEq] at hmap
      intro bn
      simp only [decodeDigits, hmap.1, List.foldl_cons]
      exact ih tail hmap.2 _

/-! ### Character-table facts (all by finite checking) -/

theorem b58Index_getD : ∀ d < 58, b58Index (b58Chars.getD d '?') = some d := by decide

theorem b58Chars_getD_ne_one : ∀ d < 58, d ≠ 0 → b58Chars.getD d '?' ≠ '1' := by decide

theorem b58Index_one : b58Index '1' = some 0 := by decide

/-! ### List bookkeeping helpers -/

theorem lastNZ_iff (l : List Nat) : LastNZ l ↔ l.getLast? ≠ some 0 := by
  cases hl : l with
  | nil => simp [LastNZ]
  | cons x t =>
    constructor
    · intro h hc
      rw [List.getLast?_eq_getLast _ (by simp)] at hc
      exact h (by simp) (by injection hc)
    · intro h hne
      intro h0
      exact h (by rw [List.getLast?_eq_getLast _ hne, h0])

theorem foldl_reverse_ofDigits (base : Nat) (l : List Nat) : ∀ a : Nat,
    l.reverse.foldl (fun x d => x * base + d) a = a * base ^ l.length + Nat.ofDigits base l := by
  induction l with
  | nil => intro a; simp
  | cons d t ih =>
    intro a
    rw [List.reverse_cons, List.foldl_append]
    simp only [List.foldl_cons, List.foldl_nil, ih, Nat.ofDigits_cons, List.length_cons, pow_succ]
    ring

theorem takeWhile_replicate_append {α : Type} (p : α → Bool) (a : α) (ha : p a = true)
    (t : List α) : ∀ z, ((List.replicate z a ++ t).takeWhile p)
      = List.replicate z a ++ t.takeWhile p := by
  intro z
  induction z with
  | zero => simp
  | succ n ih =>
    rw [List.replicate_succ, List.cons_append, List.takeWhile_cons, if_pos ha, ih]
    simp

theorem drop_length_takeWhile {α : Type} (p : α → Bool) (l : List α) :
    l.drop (l.takeWhile p).length = l.dropWhile p := by
  induction l with
  | nil => rfl
  | cons x t ih =>
    by_cases hx : p x
    · rw [List.takeWhile_cons, if_pos hx, List.dropWhile_cons_of_pos hx, List.length_cons,
        List.drop_succ_cons]
      exact ih
    · rw [List.takeWhile_cons, if_neg hx, List.dropWhile_cons_of_neg hx]
      rfl

theorem dropWhile_head_not {α : Type} (p : α → Bool) (l : List α) :
    ∀ x t, l.dropWhile p = x :: t → p x = false := by
  induction l with
  | nil => intro x t h; simp at h
  | cons y rest ih =>
    intro x t h
    by_cases hy : p y
    · rw [List.dropWhile_cons_of_pos hy] at h
      exact ih x t h
    · rw [List.dropWhile_cons_of_neg hy] at h
      injection h with h1 _
      subst h1
      simpa using hy

theorem takeWhile_zero_eq_replicate (l : List Nat) :
    l.takeWhile (· == 0) = List.replicate (l.takeWhile (· == 0)).length 0 := by
  apply List.eq_replicate_of_mem
  intro b hb
  have := List.mem_takeWhile_imp hb
  simpa using this

/-! ### Structure of `encode_base58` output -/

theorem encode_base58_toList (B : List Nat) :
    (encode_base58 B).toList =
      List.replicate (countLeadingZeroBytes B) '1' ++
        (((B.drop (countLeadingZeroBytes B)).foldl encStep []).reverse.map
          fun d => b58Chars.getD d '?') := rfl

/-- The big-integer accumulator of `encode_base58` computes exactly the
canonical little-endian base-58 digits of the big-endian value of its
input bytes. -/
theorem encBig_eq_digits (B : List Nat) :
    B.foldl encStep [] = Nat.digits 58 (B.foldl (fun a x => a * 256 + x) 0) := by
  have hval : Nat.ofDigits 58 (B.foldl encStep []) = B.foldl (fun a x => a * 256 + x) 0 := by
    have h := foldl_encStep_val B []
    simpa using h
  have hlt : ∀ x ∈ B.foldl encStep [], x < 58 := foldl_encStep_lt B [] (by simp)
  have hnz : LastNZ (B.foldl encStep []) :=
    foldl_encStep_lastnz B [] (by intro h; simp at h)
  calc B.foldl encStep []
      = Nat.digits 58 (Nat.ofDigits 58 (B.foldl encStep [])) :=
        (Nat.digits_ofDigits 58 (by norm_num) _ hlt hnz).symm
    _ = Nat.digits 58 (B.foldl (fun a x => a * 256 + x) 0) := by rw [hval]

/-- The number of leading '1' characters `encode_base58` emits is exactly its
leading-zero-byte count: the first base-58 digit it emits after the '1's is
the nonzero top digit of the accumulator. -/
theorem encode_leading_ones (B : List Nat) :
    ((encode_base58 B).toList.takeWhile (· == '1')).length = countLeadingZeroBytes B := by
  rw [encode_base58_toList, takeWhile_replicate_append _ _ (by decide) _]
  have hlt : ∀ x ∈ (B.drop (countLeadingZeroBytes B)).foldl encStep [], x < 58 :=
    foldl_encStep_lt _ [] (by simp)
  have hnz : LastNZ ((B.drop (countLeadingZeroBytes B)).foldl encStep []) :=
    foldl_encStep_lastnz _ [] (by intro h; simp at h)
  have hmap : ((((B.drop (countLeadingZeroBytes B)).foldl encStep []).reverse.map
      fun d => b58Chars.getD d '?').takeWhile (· == '1')) = [] := by
    cases hrev : ((B.drop (countLeadingZeroBytes B)).foldl encStep []).reverse with
    | nil => rfl
    | cons x tail =>
      have hxmem : x ∈ (B.drop (countLeadingZeroBytes B)).foldl encStep [] := by
        have hx : x ∈ ((B.drop (countLeadingZeroBytes B)).foldl encStep []).reverse := by
          rw [hrev]; simp
        simpa using hx
      have hx58 : x < 58 := hlt x hxmem
      have hx0 : x ≠ 0 := by
        have h1 : ((B.drop (countLeadingZeroBytes B)).foldl encStep []).getLast? = some x := by
          rw [← List.head?_reverse, hrev]; rfl
        rw [lastNZ_iff] at hnz
        intro h0
        subst h0
        exact hnz h1
      have hne1 : b58Chars.getD x '?' ≠ '1' := b58Chars_getD_ne_one x hx58 hx0
      rw [List.map_cons, List.takeWhile_cons, if_neg (by simpa using hne1)]
  rw [hmap]
  simp [countLeadingZeroBytes]

/-! ### Decoding an encoded byte string -/

theorem foldl_decStep_zeros : ∀ z : Nat, (List.replicate z 0).foldl decStep [] = [] := by
  intro z
  induction z with
  | zero => rfl
  | succ n ih =>
    rw [List.replicate_succ, List.foldl_cons]
    exact ih

/-- Decoding the character string `encode_base58` produced accumulates exactly
the canonical base-256 bytes of the encoded value. -/
theorem decodeDigits_encode (B : List Nat) :
    decodeDigits [] (encode_base58 B).toList =
      .ok ((((B.drop (countLeadingZeroBytes B)).foldl encStep []).reverse).foldl decStep []) := by
  set bObj := (B.drop (countLeadingZeroBytes B)).foldl encStep [] with hbObj
  have hlt : ∀ x ∈ bObj, x < 58 := foldl_encStep_lt _ [] (by simp)
  have hmap : (encode_base58 B).toList.map b58Index =
      (List.replicate (countLeadingZeroBytes B) 0 ++ bObj.reverse).map some := by
    rw [encode_base58_toList, List.map_append, List.map_append, List.map_replicate,
      List.map_replicate, List.map_map, b58Index_one]
    congr 1
    apply List.map_congr_left
    intro d hd
    have hd58 : d < 58 := hlt d (by simpa using hd)
    exact b58Index_getD d hd58
  rw [decodeDigits_valid _ _ hmap, List.foldl_append, foldl_decStep_zeros]

/-- Round-trip core: on a 25-byte input, `decode_base58` inverts
`encode_base58`. -/
theorem decode_encode (B : List Nat) (hlen : B.length = 25) (hB : ∀ x ∈ B, x < 256) :
    decode_base58 (encode_base58 B) = .ok B := by
  set z := countLeadingZeroBytes B with hz
  set rest := B.drop z with hrestdef
  have hrest_dw : rest = B.dropWhile (· == 0) := drop_length_takeWhile (· == 0) B
  set bObj := rest.foldl encStep [] with hbObj
  set N := rest.foldl (fun a x => a * 256 + x) 0 with hN
  set bn := bObj.reverse.foldl decStep [] with hbn
  -- the accumulated big integer is canonical and carries the value N
  have hval : Nat.ofDigits 256 bn = N := by
    rw [hbn, foldl_decStep_val]
    have h1 := foldl_reverse_ofDigits 58 bObj 0
    have h2 := foldl_encStep_val rest []
    simp only [Nat.ofDigits_nil, zero_mul, zero_add] at h1 h2 ⊢
    rw [h1, h2]
  have hlt : ∀ x ∈ bn, x < 256 := by
    rw [hbn]
    apply foldl_decStep_lt
    · intro d hd
      have : d < 58 := foldl_encStep_lt rest [] (by simp) d (by simpa using hd)
      omega
    · simp
  have hnz : LastNZ bn := by
    rw [hbn]
    exact foldl_decStep_lastnz _ [] (by intro h; simp at h)
  have hbn_digits : bn = Nat.digits 256 N := by
    calc bn = Nat.digits 256 (Nat.ofDigits 256 bn) :=
          (Nat.digits_ofDigits 256 (by norm_num) _ hlt hnz).symm
      _ = Nat.digits 256 N := by rw [hval]
  -- the reversed original bytes are canonical with the same value
  have hlt2 : ∀ x ∈ rest.reverse, x < 256 := by
    intro x hx
    exact hB x (List.drop_subset z B (by simpa using hx))
  have hnz2 : LastNZ rest.reverse := by
    rw [lastNZ_iff, List.getLast?_reverse]
    cases hr : rest with
    | nil => simp
    | cons x t =>
      have hx := dropWhile_head_not (· == 0) B x t (by rw [← hrest_dw, hr])
      simp only [List.head?_cons, ne_eq, Option.some.injEq]
      intro h0
      subst h0
      simp at hx
  have hval2 : Nat.ofDigits 256 rest.reverse = N := by
    have h1 := foldl_reverse_ofDigits 256 rest.reverse 0
    rw [List.reverse_reverse] at h1
    simp only [zero_mul, zero_add] at h1
    rw [← h1, hN]
  have hrest_digits : rest.reverse = Nat.digits 256 N := by
    calc rest.reverse = Nat.digits 256 (Nat.ofDigits 256 rest.reverse) :=
          (Nat.digits_ofDigits 256 (by norm_num) _ hlt2 hnz2).symm
      _ = Nat.digits 256 N := by rw [hval2]
  have hbn_rest : bn = rest.reverse := by rw [hbn_digits, hrest_digits]
  -- assemble the decoder
  have hz_le : z ≤ 25 := by
    rw [hz, countLeadingZeroBytes, ← hlen]
    exact (List.takeWhile_sublist _).length_le
  have hrest_len : rest.length = 25 - z := by
    rw [hrestdef, List.length_drop, hlen]
  have hbn_len : bn.length = 25 - z := by
    rw [hbn_rest, List.length_reverse, hrest_len]
  unfold decode_base58
  rw [decodeDigits_encode B]
  have hones : ((encode_base58 B).toList.takeWhile (· == '1')).length = z :=
    encode_leading_ones B
  simp only [← hbObj, ← hbn, hones, hbn_len]
  rw [min_eq_left hz_le, min_self, if_pos (by omega)]
  rw [hbn_rest, List.reverse_reverse]
  have htake : rest.take (25 - z) = rest := by
    rw [← hrest_len]
    exact List.take_length rest
  rw [htake]
  congr 1
  have hsplit := List.takeWhile_append_dropWhile (· == 0) B
  have hrepl := takeWhile_zero_eq_replicate B
  rw [← hrest_dw] at hsplit
  rw [hrepl] at hsplit
  rw [hz, countLeadingZeroBytes]
  exact hsplit

/-! ### Claim C2 — Base58 round-trip -/

/-- C2: for every 25-byte array `B`, decoding the Base58 encoding of `B` with
expected width 25 returns exactly `B`. -/
theorem c2_decode_encode_roundtrip (B : List Nat) (hlen : B.length = 25)
    (hB : ∀ x ∈ B, x < 256) : decode_base58 (encode_base58 B) = .ok B :=
  decode_encode B hlen hB

theorem c2_decode_encode_roundtrip_w :
    (1 :: List.replicate 24 0).length = 25 ∧ (∀ x ∈ 1 :: List.replicate 24 0, x < 256) ∧
      decode_base58 (encode_base58 (1 :: List.replicate 24 0)) = .ok (1 :: List.replicate 24 0) :=
  ⟨by decide, by decide, c2_decode_encode_roundtrip _ (by decide) (by decide)⟩

/-! ### Claim C8 — leading-zero correspondence -/

/-- C8: for every byte array `B`, the number of leading '1' characters in
`encode_base58 B` equals the number of leading zero bytes of `B`. -/
theorem c8_leading_ones (B : List Nat) (hB : ∀ x ∈ B, x < 256) :
    ((encode_base58 B).toList.takeWhile (· == '1')).length =
      (B.takeWhile (· == 0)).length :=
  encode_leading_ones B

theorem c8_leading_ones_w :
    (∀ x ∈ [0, 0, 7, 0], x < 256) ∧
      ((encode_base58 [0, 0, 7, 0]).toList.takeWhile (· == '1')).length =
        ([0, 0, 7, 0].takeWhile (· == 0)).length :=
  ⟨by decide, c8_leading_ones [0, 0, 7, 0] (by decide)⟩

/-! ### Claim C4 — decode length checking

`decode_base58` caps both its zero-filling loop and its byte-copy loop at the
25-byte buffer, so an input whose reconstructed byte sequence is longer than
25 bytes passes the final `pos == result.size()` check and is silently
truncated. -/

/-- C4: demonstration at the failing input: `"1"×25 ++ "8"` is the Base58
encoding of the 26-byte sequence `0x00×25 ++ 0x07`, yet `decode_base58`
returns 25 zero bytes — silently dropping the trailing `0x07` instead of
failing with the invalid-length error. -/
theorem c4_silent_truncation :
    encode_base58 (List.replicate 25 0 ++ [7]) = ⟨List.replicate 25 '1' ++ ['8']⟩ ∧
      decode_base58 ⟨List.replicate 25 '1' ++ ['8']⟩ = .ok (List.replicate 25 0) :=
  ⟨by decide, rfl⟩

/-! ### Claim C5 — invalid-character checking

`strchr(BASE58_CHARS, c)` treats the terminating NUL of the alphabet array as
part of the searched string, so a NUL input character comes back as position
58 instead of `nullptr` and is accepted as the (out-of-range) digit 58. -/

/-- C5: demonstration at the failing input: NUL is outside the 58-character
alphabet, yet `decode_base58` on `"1"×24 ++ NUL` does not fail with the
invalid-character error — it accepts NUL as digit 58 and returns a byte
string ending in 58. -/
theorem c5_nul_accepted :
    Char.ofNat 0 ∉ b58Chars ∧
      decode_base58 ⟨List.replicate 24 '1' ++ [Char.ofNat 0]⟩ =
        .ok (List.replicate 24 0 ++ [58]) :=
  ⟨by decide, rfl⟩

/-! ### Claim C1 — the search enumeration -/


theorem range_two : List.range 2 = [0, 1] := by decide

theorem range_one : List.range 1 = [0] := by decide

theorem candidatePaths_eq_spec : candidatePaths = candidatePathsSpec := by
  simp only [candidatePaths, candidatePathsSpec, familyList, familyCandidatesSpec,
    legacyCandidatesSpec, hardened, List.flatMap_cons, List.flatMap_nil, List.append_nil,
    List.isEmpty_cons, List.isEmpty_nil, Bool.false_eq_true, if_false, if_true, range_two,
    range_one, List.cons_append, List.nil_append, Nat.add_zero, List.append_assoc]

theorem candidatePaths_length : candidatePaths.length = 2440 := by
  simp only [candidatePaths, familyList, List.flatMap_cons, List.flatMap_nil,
    List.append_nil, List.isEmpty_cons, List.isEmpty_nil, Bool.false_eq_true, if_false,
    if_true, range_two, range_one, List.length_append, List.length_flatMap, List.length_map,
    List.length_range, Function.comp_def, List.map_const', List.sum_replicate, smul_eq_mul]


theorem searchLoop_eq (L : CryptoLib) (master : HDKey) (target : List Nat) :
    ∀ (ps : List (List Nat)) (n : Nat),
      (∀ p ∈ ps, (derivePath L master p).isOk = true) →
      searchLoop L master target ps n =
        .ok (match firstMatch L master target ps with
             | some r => (n + r.1, some r.2)
             | none => (n + ps.length, none)) := by
  intro ps
  induction ps with
  | nil => intro n _; simp [searchLoop, firstMatch]
  | cons p rest ih =>
    intro n hall
    have hp := hall p (List.mem_cons_self p rest)
    cases hd : derivePath L master p with
    | error e =>
      rw [hd] at hp
      simp [Except.isOk, Except.toBool] at hp
    | ok key =>
      have hph : pathHits L master target p = (key.get_address L == target) := by
        unfold pathHits
        rw [hd]
      by_cases hmatch : (key.get_address L == target) = true
      · simp only [searchLoop, hd, hmatch, if_true, firstMatch, hph]
      · have hmf : (key.get_address L == target) = false := by simpa using hmatch
        simp only [searchLoop, hd, hmf, if_false, firstMatch, hph, Bool.false_eq_true]
        rw [ih (n + 1) (fun q hq => hall q (List.mem_cons_of_mem _ hq))]
        cases hfm : firstMatch L master target rest with
        | none =>
          simp only [Option.map_none', List.length_cons]
          have harith : n + 1 + rest.length = n + (rest.length + 1) := by omega
          rw [harith]
        | some r =>
          simp only [Option.map_some']
          have harith : n + 1 + r.1 = n + (r.1 + 1) := by omega
          rw [harith]

/-- C1: for every mnemonic and 25-byte target, the search space is exactly the
spec's order — BIP44, BIP49, BIP84, then legacy, with hardened account 0..19
(skipped for legacy), change {0,1}, index 0..19 — 2440 candidates in total;
whenever derivation succeeds on the space, `check_seed_phrase` returns the
first matching path having examined exactly the candidates up to it, and
failure with exactly 2440 candidates examined when none matches. -/
theorem c1_search_order (L : CryptoLib) (m : String) (target : List Nat) (master : HDKey)
    (hm : HDKey.from_seed L (seed_from_phrase L m) = .ok master)
    (hall : ∀ p ∈ candidatePaths, (derivePath L master p).isOk = true) :
    candidatePaths = candidatePathsSpec ∧
    candidatePaths.length = 2440 ∧
    check_seed_phrase L m target =
      .ok (match firstMatch L master target candidatePaths with
           | some r => (r.1, some r.2)
           | none => (2440, none)) := by
  refine ⟨candidatePaths_eq_spec, candidatePaths_length, ?_⟩
  simp only [check_seed_phrase, hm]
  rw [searchLoop_eq L master target candidatePaths 0 hall]
  cases hfm : firstMatch L master target candidatePaths with
  | none => simp [candidatePaths_length]
  | some r => simp

/-! ### Claim C3 — child derivation -/


theorem and255 (n : Nat) : n &&& 255 = n % 256 := by
  have h := Nat.and_pow_two_sub_one_eq_mod n 8
  norm_num at h
  exact h

/-- The shift-and-mask big-endian serialization equals plain base-256
byte extraction. -/
theorem be32_eq (i : Nat) :
    be32 i = [i / 16777216 % 256, i / 65536 % 256, i / 256 % 256, i % 256] := by
  simp only [be32, and255, Nat.shiftRight_eq_div_pow]

theorem child_data_spec (k : HDKey) (i : Nat) :
    k.child_data i = (if 2 ^ 31 ≤ i then [0] ++ k.private_key else k.public_key) ++
      [i / 16777216 % 256, i / 65536 % 256, i / 256 % 256, i % 256] := by
  simp only [HDKey.child_data, be32_eq, List.singleton_append, ge_iff_le]

theorem derive_child_cases (L : CryptoLib) (k : HDKey) (i : Nat) :
    k.derive_child L i =
      match L.seckeyTweakAdd k.private_key (childIL L k i) with
      | none => .error .invalidChildKey
      | some csk =>
        match L.pubkeyCreate csk with
        | none => .error .pubkeyCreateFailed
        | some pk => .ok ⟨csk, childIR L k i, pk⟩ := by
  unfold HDKey.derive_child HDKey.create childIL childIR
  dsimp only
  cases L.seckeyTweakAdd k.private_key
      (List.take 32 (L.hmacSha512 k.chain_code (k.child_data i))) with
  | none => rfl
  | some csk =>
    dsimp only
    cases L.pubkeyCreate csk with
    | none => rfl
    | some pk => rfl

theorem deriveChildSpec_cases (L : CryptoLib) (k : HDKey) (i : Nat) :
    deriveChildSpec L k i =
      match L.seckeyTweakAdd k.private_key (childIL L k i) with
      | none => .error .invalidChildKey
      | some csk =>
        match L.pubkeyCreate csk with
        | none => .error .pubkeyCreateFailed
        | some pk => .ok ⟨csk, childIR L k i, pk⟩ := by
  unfold deriveChildSpec childIL childIR
  dsimp only
  rw [← child_data_spec]

/-- C3: `derive_child` builds the blob exactly as the spec says (hardened
`0x00‖scalar‖BE32(i)` for `i ≥ 2^31`, else `pubkey‖BE32(i)`), mixes it via
HMAC-SHA512 keyed by the chain code, produces the child from the library
tweak-add with chain code `I_R` and a recomputed public key, and fails with
`InvalidChildKey` exactly when the tweak-add rejects (under the library
contract that tweak-add outputs are valid scalars). -/
theorem c3_derive_child (L : CryptoLib)
    (hL : ∀ a b c, L.seckeyTweakAdd a b = some c → (L.pubkeyCreate c).isSome = true)
    (k : HDKey) (i : Nat) :
    k.derive_child L i = deriveChildSpec L k i ∧
    k.child_data i = (if 2 ^ 31 ≤ i then [0] ++ k.private_key else k.public_key) ++
      [i / 16777216 % 256, i / 65536 % 256, i / 256 % 256, i % 256] ∧
    (k.derive_child L i = .error .invalidChildKey ↔
      L.seckeyTweakAdd k.private_key (childIL L k i) = none) ∧
    (∀ csk, L.seckeyTweakAdd k.private_key (childIL L k i) = some csk →
      ∃ pk, L.pubkeyCreate csk = some pk ∧
        k.derive_child L i = .ok ⟨csk, childIR L k i, pk⟩) := by
  refine ⟨by rw [derive_child_cases, deriveChildSpec_cases], child_data_spec k i, ?_, ?_⟩
  · rw [derive_child_cases]
    cases htw : L.seckeyTweakAdd k.private_key (childIL L k i) with
    | none => simp
    | some csk =>
      cases hpk : L.pubkeyCreate csk with
      | none => simp [hpk]
      | some pk => simp [hpk]
  · intro csk htw
    have hs := hL _ _ _ htw
    rw [Option.isSome_iff_exists] at hs
    obtain ⟨pk, hpk⟩ := hs
    refine ⟨pk, hpk, ?_⟩
    rw [derive_child_cases, htw]
    simp [hpk]

/-! ### Claim C7 — address format -/

/-- C7: for every node, `get_address` is exactly 25 bytes — version byte
`0x00`, the 20-byte hash160 (SHA-256 then RIPEMD-160) of the compressed
public key, then the first 4 bytes of the double SHA-256 of the preceding 21
bytes — under the digest contract that SHA-256 outputs 32 bytes and
RIPEMD-160 outputs 20. -/
theorem c7_get_address (L : CryptoLib)
    (hS : ∀ x, (L.sha256 x).length = 32) (hR : ∀ x, (L.ripemd160 x).length = 20)
    (k : HDKey) :
    k.get_address L =
      0 :: hash160 L k.public_key ++
        (L.sha256 (L.sha256 (0 :: hash160 L k.public_key))).take 4 ∧
    (k.get_address L).length = 25 := by
  have h20 : (hash160 L k.public_key).length = 20 := hR _
  have hr1 : writeAt (List.replicate 25 0) 1 (hash160 L k.public_key) =
      0 :: hash160 L k.public_key ++ List.replicate 4 0 := by
    unfold writeAt
    rw [List.length_replicate, List.take_replicate,
      List.take_of_length_le (by rw [h20]; norm_num), h20, List.drop_replicate]
    norm_num [List.replicate_succ]
  have hr1take : (0 :: hash160 L k.public_key ++ List.replicate 4 0).take 21 =
      0 :: hash160 L k.public_key := by
    rw [List.cons_append, show (21 : Nat) = 20 + 1 from rfl, List.take_succ_cons]
    congr 1
    rw [show (20 : Nat) = (hash160 L k.public_key).length from h20.symm, List.take_left]
  have hr1len : (0 :: hash160 L k.public_key ++ List.replicate 4 0).length = 25 := by
    simp [h20]
  have hcs4 : ((L.sha256 (L.sha256 (0 :: hash160 L k.public_key))).take 4).length = 4 := by
    simp [List.length_take, hS]
  have htk : ((L.sha256 (L.sha256 (0 :: hash160 L k.public_key))).take 4).length ≤ 25 - 21 := by
    simp [hcs4]
  have hdp : (0 :: hash160 L k.public_key ++ List.replicate 4 0).length ≤
      21 + ((L.sha256 (L.sha256 (0 :: hash160 L k.public_key))).take 4).length := by
    rw [hr1len, hcs4]
  have haddr : k.get_address L =
      0 :: hash160 L k.public_key ++
        (L.sha256 (L.sha256 (0 :: hash160 L k.public_key))).take 4 := by
    unfold HDKey.get_address
    dsimp only
    rw [hr1, hr1take]
    unfold writeAt
    rw [List.drop_eq_nil_of_le hdp, hr1len, hr1take, List.take_of_length_le htk,
      List.append_nil, List.cons_append]
  refine ⟨haddr, ?_⟩
  rw [haddr]
  simp [h20, List.length_take, hS]

/-! ### Claim C9 — node invariant -/

theorem create_good (L : CryptoLib) (sk cc : List Nat) (k : HDKey)
    (h : HDKey.create L sk cc = .ok k) :
    L.pubkeyCreate k.private_key = some k.public_key := by
  unfold HDKey.create at h
  cases hp : L.pubkeyCreate sk with
  | none => rw [hp] at h; cases h
  | some pk =>
    rw [hp] at h
    injection h with h1
    subst h1
    exact hp

theorem from_seed_good (L : CryptoLib) (seed : List Nat) (k : HDKey)
    (h : HDKey.from_seed L seed = .ok k) :
    L.pubkeyCreate k.private_key = some k.public_key := by
  unfold HDKey.from_seed at h
  dsimp only at h
  split at h
  · exact create_good L _ _ k h
  · cases h

theorem derive_child_good (L : CryptoLib) (k c : HDKey) (i : Nat)
    (h : k.derive_child L i = .ok c) :
    L.pubkeyCreate c.private_key = some c.public_key := by
  rw [derive_child_cases] at h
  cases htw : L.seckeyTweakAdd k.private_key (childIL L k i) with
  | none => rw [htw] at h; cases h
  | some csk =>
    rw [htw] at h
    dsimp only at h
    cases hpk : L.pubkeyCreate csk with
    | none => rw [hpk] at h; cases h
    | some pk =>
      rw [hpk] at h
      injection h with h1
      subst h1
      exact hpk

theorem derivePath_good (L : CryptoLib) (p : List Nat) : ∀ (k0 k : HDKey),
    L.pubkeyCreate k0.private_key = some k0.public_key →
    derivePath L k0 p = .ok k →
    L.pubkeyCreate k.private_key = some k.public_key := by
  induction p with
  | nil =>
    intro k0 k h0 h
    unfold derivePath at h
    injection h with h1
    subst h1
    exact h0
  | cons i rest ih =>
    intro k0 k h0 h
    unfold derivePath at h
    cases hd : k0.derive_child L i with
    | error e => rw [hd] at h; cases h
    | ok c =>
      rw [hd] at h
      exact ih c k (derive_child_good L k0 c i hd) h

/-- C9: every node reached from `from_seed` by any sequence of `derive_child`
calls stores exactly the library's compressed-point encoding of its scalar as
its public key, and (under the library contract that public-key creation only
succeeds on valid scalars) its scalar is a valid secp256k1 scalar. -/
theorem c9_node_invariant (L : CryptoLib)
    (hV : ∀ s p, L.pubkeyCreate s = some p → L.seckeyVerify s = true)
    (seed p : List Nat) (m k : HDKey)
    (hm : HDKey.from_seed L seed = .ok m) (hp : derivePath L m p = .ok k) :
    L.pubkeyCreate k.private_key = some k.public_key ∧
      L.seckeyVerify k.private_key = true := by
  have hg := derivePath_good L p m k (from_seed_good L seed m hm) hp
  exact ⟨hg, hV _ _ hg⟩

/-! ### Claim C10 — version-byte assertion -/

/-- C10: for every target string that decodes successfully, if the decoded
version byte is non-zero, `main` hits the `assert(target_bytes[0] == 0)` and
aborts before the search; only version-0x00 targets are ever searched. -/
theorem c10_version_assert (L : CryptoLib) (m t : String) (target : List Nat)
    (hd : decode_base58 t = .ok target) (h0 : target.head? ≠ some 0) :
    mainRun L true m t = .abortAssert := by
  unfold mainRun
  rw [if_neg (by simp), hd]
  simp [h0]

/-! ### Claim C6 — exit codes -/

/-- C6 amended behaviour: context-creation failure exits with code 1, a
successful run exits 0 on a match and 1 on exhaustion. -/
theorem c6_exit_codes (L : CryptoLib) (m t : String) :
    mainRun L false m t = .exit 1 ∧
    (∀ target r, decode_base58 t = .ok target → target.head? = some 0 →
      check_seed_phrase L m target = .ok r →
      mainRun L true m t = .exit (if r.2.isSome then 0 else 1)) := by
  constructor
  · rfl
  · intro target r hd h0 hs
    unfold mainRun
    rw [if_neg (by simp), hd]
    dsimp only
    rw [if_neg (by simp [h0]), hs]
    rfl

/-! ### A concrete degenerate library instance used by the witnesses -/


theorem derive_child_triv (k : HDKey) (i : Nat) :
    k.derive_child trivLib i =
      .ok ⟨k.private_key, List.replicate 32 0, List.replicate 33 0⟩ := rfl

theorem derivePath_triv : ∀ (p : List Nat) (k : HDKey),
    (derivePath trivLib k p).isOk = true := by
  intro p
  induction p with
  | nil => intro k; rfl
  | cons i rest ih => intro k; exact ih _

/-- C6 counterexample: context-creation failure exits with code 1 — the very
same code the `return found ? 0 : 1` statement yields on a no-match run —
not a distinct code. -/
theorem c6_not_distinct :
    mainRun trivLib false theMnemonic theTargetStr = .exit 1 ∧
      ctxFailExitCode = searchExitCode false :=
  ⟨rfl, rfl⟩

/-! ### Witnesses at closed inputs -/

theorem c1_search_order_w :
    check_seed_phrase trivLib "m" (List.replicate 25 0) =
      .ok (1, some [2 ^ 31 + 44, 2 ^ 31, 2 ^ 31, 0, 0]) := by
  have h := c1_search_order trivLib "m" (List.replicate 25 0) trivMaster rfl
    (fun p _ => derivePath_triv p trivMaster)
  rw [h.2.2]
  rfl

theorem c3_derive_child_w :
    trivMaster.derive_child trivLib 0 = deriveChildSpec trivLib trivMaster 0 :=
  (c3_derive_child trivLib (fun _ _ _ _ => rfl) trivMaster 0).1

theorem c7_get_address_w :
    trivMaster.get_address trivLib =
      0 :: hash160 trivLib trivMaster.public_key ++
        (trivLib.sha256 (trivLib.sha256
          (0 :: hash160 trivLib trivMaster.public_key))).take 4 ∧
      (trivMaster.get_address trivLib).length = 25 :=
  c7_get_address trivLib (fun _ => rfl) (fun _ => rfl) trivMaster

theorem c9_node_invariant_w :
    trivLib.pubkeyCreate trivMaster.private_key = some trivMaster.public_key ∧
      trivLib.seckeyVerify trivMaster.private_key = true :=
  c9_node_invariant trivLib (fun _ _ _ => rfl) [] [0] trivMaster trivMaster rfl rfl

theorem c10_version_assert_w :
    decode_base58 "QLbz7JHiBTspS962RLKV8GndWFwiEaqKM" = .ok (1 :: List.replicate 24 0) ∧
      mainRun trivLib true theMnemonic "QLbz7JHiBTspS962RLKV8GndWFwiEaqKM" = .abortAssert :=
  ⟨rfl, c10_version_assert trivLib theMnemonic "QLbz7JHiBTspS962RLKV8GndWFwiEaqKM"
    (1 :: List.replicate 24 0) rfl (by decide)⟩

theorem c6_exit_codes_w :
    mainRun trivLib false theMnemonic "1111111111111111111111111" = .exit 1 ∧
      mainRun trivLib true theMnemonic "1111111111111111111111111" = .exit 0 := by
  have h := c6_exit_codes trivLib theMnemonic "1111111111111111111111111"
  refine ⟨h.1, ?_⟩
  have h2 := h.2 (List.replicate 25 0) (1, some [2 ^ 31 + 44, 2 ^ 31, 2 ^ 31, 0, 0])
    rfl rfl (by rfl)
  simpa using h2

end HackBtc
